import Mathlib

/-!
Shallow embedding of the `martin-cp` tile copier
(`src/martin/src/bin/martin-cp.rs`) and proofs about its tile-range
computation, copy-pipeline consumer, schema initialization and progress
rendering.

Conventions used throughout:

* Machine integers (`u8`, `u32`, `u64`) are embedded as `Nat`; operations that
  can fail under Rust's checked arithmetic (shift overflow, subtraction
  underflow, multiplication overflow, division by zero) return `Option`.
* The source evaluates a handful of `f64` expressions (the spherical-Mercator
  projection inside `tile_index`, and elapsed-time/speed formatting).  IEEE-754
  evaluation is outside this embedding: the two floored projection expressions
  are supplied by an explicit oracle (`Proj`), and the formatted time strings
  of the progress line are plain `String` parameters.  Everything the claims
  depend on (clamping, range arithmetic, merging, batching, counting) is exact
  integer code and is embedded directly.
* Code of this repository that is not under `src/` (the `TileRect` type with
  `append_rect` from the martin library, `Bounds::MAX_TILED` from the tilejson
  dependency, and the `MbtType` schema enums of the mbtiles crate) is modelled
  from the spec; each such definition carries a doc comment starting with
  `Modelled from the spec:`.
-/

namespace MartinCp

/-- Tile coordinate `TileCoord { z: u8, x: u32, y: u32 }` (martin library value
type re-exported to the source; spec §3). -/
structure TileCoord where
  z : Nat
  x : Nat
  y : Nat
deriving DecidableEq, Repr

/-- Modelled from the spec: `TileRect` (martin library, not under `src/`).
Spec §3: an axis-aligned inclusive range of tile coordinates at one zoom
level. -/
structure TileRect where
  zoom : Nat
  min_x : Nat
  min_y : Nat
  max_x : Nat
  max_y : Nat
deriving DecidableEq, Repr

/-- Modelled from the spec: `TileRect::size()` (spec §3):
`size() = (max_x-min_x+1) * (max_y-min_y+1)`. -/
def TileRect.size (r : TileRect) : Nat :=
  (r.max_x - r.min_x + 1) * (r.max_y - r.min_y + 1)

/-- Number of coordinates `iterate_tiles` enumerates from one rectangle
(`min_x..=max_x` times `min_y..=max_y`; empty when the bounds are inverted). -/
def TileRect.tileCount (r : TileRect) : Nat :=
  (r.max_x + 1 - r.min_x) * (r.max_y + 1 - r.min_y)

/-- Membership of a tile coordinate in a rectangle. -/
def TileRect.holds (r : TileRect) (c : TileCoord) : Prop :=
  c.z = r.zoom ∧ r.min_x ≤ c.x ∧ c.x ≤ r.max_x ∧ r.min_y ≤ c.y ∧ c.y ≤ r.max_y

instance (r : TileRect) (c : TileCoord) : Decidable (r.holds c) := by
  unfold TileRect.holds
  exact inferInstance

/-- Membership of a coordinate in the region covered by a list of rectangles. -/
def coveredBy (ranges : List TileRect) (c : TileCoord) : Prop :=
  ∃ r ∈ ranges, r.holds c

/-- Geographic bounding box in degrees, the `tilejson::Bounds` values carried by
`CopyArgs.bbox`.  The source stores `f64` coordinates; they are embedded as
exact rationals, and all floating-point evaluation on them is factored into the
projection oracle `Proj`. -/
structure Bounds where
  left : ℚ
  bottom : ℚ
  right : ℚ
  top : ℚ
deriving DecidableEq

/-- Modelled from the spec: `Bounds::MAX_TILED` (tilejson dependency), the
implicit "whole world" web-mercator box substituted when no bounding box is
given (spec §4.1). -/
def Bounds.maxTiled : Bounds :=
  ⟨-180, -85.05112877980659, 180, 85.05112877980659⟩

/-- Floating-point projection oracle.  `tile_index` (source lines 155-159)
computes two floored `f64` expressions:
`fx = ((lon + 180.0) / 360.0 * n).floor()` and
`fy = ((1.0 - ln(tan(lat_rad) + 1.0/cos(lat_rad)) / PI) / 2.0 * n).floor()`.
A `Proj` value assigns to each `(lon, lat, zoom)` the mathematical integer
values of those two floored results.  A NaN intermediate behaves under Rust's
saturating `as u32` cast exactly like a negative integer, so `Int` results
cover every reachable f64 outcome. -/
def Proj : Type :=
  ℚ → ℚ → Nat → Int × Int

/-- Saturating `f64 → u32` cast (`as u32` in the source, lines 157 and 159):
negative or NaN floors go to 0, values at or above `2^32` go to `u32::MAX`. -/
def satCastU32 (v : Int) : Nat :=
  min v.toNat (2 ^ 32 - 1)

/-- Shallow embedding of `tile_index` (source lines 153-162).  The two floored
f64 expressions are supplied by the oracle `proj`; the shift `1_u32 << zoom`
overflows for `zoom ≥ 32` (checked-arithmetic failure, modelled as `none`);
each axis is clamped by `.min(max_value)` with `max_value = (1 << zoom) - 1`. -/
def tile_index (proj : Proj) (lon lat : ℚ) (zoom : Nat) : Option (Nat × Nat) :=
  if zoom < 32 then
    let fx := (proj lon lat zoom).1
    let fy := (proj lon lat zoom).2
    let maxValue := 2 ^ zoom - 1
    some (min (satCastU32 fx) maxValue, min (satCastU32 fy) maxValue)
  else
    none

/-- Two tile rectangles intersect: same zoom level and overlapping inclusive
index intervals on both axes. -/
def TileRect.meets (a b : TileRect) : Prop :=
  a.zoom = b.zoom ∧ max a.min_x b.min_x ≤ min a.max_x b.max_x ∧
    max a.min_y b.min_y ≤ min a.max_y b.max_y

instance (a b : TileRect) : Decidable (a.meets b) := by
  unfold TileRect.meets
  exact inferInstance

/-- Modelled from the spec: the overlap-splitting step of `append_rect` (martin
library, not under `src/`).  Given `r` intersecting `e` (same zoom), the parts
of `r` not covered by `e` are returned as up to four disjoint rectangles: the
full-height slabs left and right of `e`, and the remaining strips above and
below `e` within the shared column range. -/
def splitPieces (r e : TileRect) : List TileRect :=
  (if r.min_x < e.min_x then
    [⟨r.zoom, r.min_x, r.min_y, e.min_x - 1, r.max_y⟩] else []) ++
  (if e.max_x < r.max_x then
    [⟨r.zoom, e.max_x + 1, r.min_y, r.max_x, r.max_y⟩] else []) ++
  (if r.min_y < e.min_y then
    [⟨r.zoom, max r.min_x e.min_x, r.min_y, min r.max_x e.max_x, e.min_y - 1⟩]
   else []) ++
  (if e.max_y < r.max_y then
    [⟨r.zoom, max r.min_x e.min_x, e.max_y + 1, min r.max_x e.max_x, r.max_y⟩]
   else [])

/-- Modelled from the spec: the recursive subtraction inside `append_rect`.
`subtractAll es r` returns the parts of `r` not covered by any rectangle of
`es`, checking the accumulated rectangles in order and splitting on the first
same-zoom overlap. -/
def subtractAll : List TileRect → TileRect → List TileRect
  | [], r => [r]
  | e :: es, r =>
    if e.meets r then (splitPieces r e).flatMap (subtractAll es)
    else subtractAll es r

/-- Modelled from the spec: `append_rect` (martin library, not under `src/`).
Spec §4.1 appends each new rectangle to an accumulating list with overlap
merging so that the emitted rectangles cover "the union of tiles covered", with
"no tile counted twice" (§2 calls the output a minimal set of non-overlapping
rectangles).  Spec §8 fixes the concrete outcomes: boxes nested inside an
already-appended box add nothing, and partially overlapping boxes split into
non-overlapping parts.  This model appends the parts of the new rectangle not
already covered by the accumulated list; it reproduces every rectangle list in
the source's `test_compute_tile_ranges` snapshots (lines 436-483), including
the four-way split of the overlapping California boxes. -/
def append_rect (ranges : List TileRect) (r : TileRect) : List TileRect :=
  ranges ++ subtractAll ranges r

/-- Fields of `CopyArgs` consumed by `compute_tile_ranges`
(source lines 82-98). -/
structure CopyArgs where
  bbox : List Bounds
  min_zoom : Option Nat
  max_zoom : Option Nat
  zoom_levels : List Nat

/-- Zoom selection of `compute_tile_ranges` (source lines 166-173): when
`max_zoom` is given the inclusive range `min_zoom..=max_zoom` (with `min_zoom`
defaulting to 0), otherwise the explicit zoom-level list. -/
def zoomSelection (args : CopyArgs) : List Nat :=
  match args.max_zoom with
  | some mz => List.range' (args.min_zoom.getD 0) (mz + 1 - args.min_zoom.getD 0)
  | none => args.zoom_levels

/-- Effective bounding-box list (source lines 174-178): the single whole-world
box when none are given. -/
def effectiveBoxes (args : CopyArgs) : List Bounds :=
  if args.bbox.isEmpty then [Bounds.maxTiled] else args.bbox

/-- Iteration order of the two nested loops in `compute_tile_ranges`
(source lines 179-188): zoom outer, box inner. -/
def zoomBoxPairs (args : CopyArgs) : List (Nat × Bounds) :=
  (zoomSelection args).flatMap fun z => (effectiveBoxes args).map fun b => (z, b)

/-- Loop body of `compute_tile_ranges`: for each (zoom, box) pair take
`(min_x, min_y) = tile_index(left, top)` and `(max_x, max_y) =
tile_index(right, bottom)` and `append_rect` the resulting rectangle. -/
def computeGo (proj : Proj) : List (Nat × Bounds) → List TileRect → Option (List TileRect)
  | [], ranges => some ranges
  | (z, b) :: rest, ranges =>
    match tile_index proj b.left b.top z, tile_index proj b.right b.bottom z with
    | some (minX, minY), some (maxX, maxY) =>
        computeGo proj rest (append_rect ranges ⟨z, minX, minY, maxX, maxY⟩)
    | _, _ => none

/-- Shallow embedding of `compute_tile_ranges` (source lines 164-190). -/
def compute_tile_ranges (proj : Proj) (args : CopyArgs) : Option (List TileRect) :=
  computeGo proj (zoomBoxPairs args) []

/-- Tiles of one rectangle in the row-major order of `iterate_tiles`
(source lines 268-275): `x` in `min_x..=max_x` outer, `y` in `min_y..=max_y`
inner. -/
def rectTiles (t : TileRect) : List TileCoord :=
  (List.range' t.min_x (t.max_x + 1 - t.min_x)).flatMap fun x =>
    (List.range' t.min_y (t.max_y + 1 - t.min_y)).map fun y => ⟨t.zoom, x, y⟩

/-- Shallow embedding of `iterate_tiles` (source lines 268-275). -/
def iterate_tiles (tiles : List TileRect) : List TileCoord :=
  tiles.flatMap rectTiles

/-- Total of `Progress::new` (source lines 211-221): the sum of
`TileRect::size` over the computed ranges. -/
def progressTotal (tiles : List TileRect) : Nat :=
  (tiles.map TileRect.size).sum

/-- Two rectangles cover disjoint coordinate sets. -/
def rectDisjoint (a b : TileRect) : Prop :=
  ∀ c : TileCoord, a.holds c → ¬ b.holds c

/-- Rectangle produced by the `compute_tile_ranges` loop body for one
(zoom, box) pair, written out with the clamping of `tile_index` (meaningful for
`zoom < 32`, where the shift does not overflow). -/
def pairRect (proj : Proj) (p : Nat × Bounds) : TileRect :=
  ⟨p.1,
    min (satCastU32 (proj p.2.left p.2.top p.1).1) (2 ^ p.1 - 1),
    min (satCastU32 (proj p.2.left p.2.top p.1).2) (2 ^ p.1 - 1),
    min (satCastU32 (proj p.2.right p.2.bottom p.1).1) (2 ^ p.1 - 1),
    min (satCastU32 (proj p.2.right p.2.bottom p.1).2) (2 ^ p.1 - 1)⟩

/-- Union of the tiles covered by every (zoom, box) pair of the input
selection: the reference region `compute_tile_ranges` must reproduce. -/
def inputCoverage (proj : Proj) (args : CopyArgs) (c : TileCoord) : Prop :=
  ∃ z ∈ zoomSelection args, ∃ b ∈ effectiveBoxes args, (pairRect proj (z, b)).holds c

lemma coveredBy_nil (c : TileCoord) : ¬ coveredBy [] c := by
  rintro ⟨r, hr, -⟩
  exact (List.not_mem_nil r) hr

lemma coveredBy_cons {e : TileRect} {es : List TileRect} {c : TileCoord} :
    coveredBy (e :: es) c ↔ e.holds c ∨ coveredBy es c := by
  constructor
  · rintro ⟨r, hr, hc⟩
    rcases List.mem_cons.1 hr with rfl | hr
    · exact Or.inl hc
    · exact Or.inr ⟨r, hr, hc⟩
  · rintro (hc | ⟨r, hr, hc⟩)
    · exact ⟨e, List.mem_cons_self e es, hc⟩
    · exact ⟨r, List.mem_cons_of_mem e hr, hc⟩

lemma meets_of_holds {a b : TileRect} {c : TileCoord}
    (ha : a.holds c) (hb : b.holds c) : a.meets b := by
  obtain ⟨h1, h2, h3, h4, h5⟩ := ha
  obtain ⟨g1, g2, g3, g4, g5⟩ := hb
  refine ⟨?_, ?_, ?_⟩ <;> omega

lemma mem_ite_singleton {α : Type} {c : Prop} [Decidable c] {a x : α} :
    (x ∈ if c then [a] else ([] : List α)) ↔ c ∧ x = a := by
  split_ifs with h <;> simp [h]

lemma mem_splitPieces {r e p : TileRect} :
    p ∈ splitPieces r e ↔
      (r.min_x < e.min_x ∧
        p = ⟨r.zoom, r.min_x, r.min_y, e.min_x - 1, r.max_y⟩) ∨
      (e.max_x < r.max_x ∧
        p = ⟨r.zoom, e.max_x + 1, r.min_y, r.max_x, r.max_y⟩) ∨
      (r.min_y < e.min_y ∧
        p = ⟨r.zoom, max r.min_x e.min_x, r.min_y, min r.max_x e.max_x,
              e.min_y - 1⟩) ∨
      (e.max_y < r.max_y ∧
        p = ⟨r.zoom, max r.min_x e.min_x, e.max_y + 1, min r.max_x e.max_x,
              r.max_y⟩) := by
  simp only [splitPieces, List.mem_append, mem_ite_singleton, or_assoc]

lemma holds_splitPieces {r e : TileRect} (hm : e.meets r) (c : TileCoord) :
    (∃ p ∈ splitPieces r e, p.holds c) ↔ r.holds c ∧ ¬ e.holds c := by
  obtain ⟨hz, hx, hy⟩ := hm
  constructor
  · rintro ⟨p, hp, hc⟩
    rcases mem_splitPieces.1 hp with ⟨h1, rfl⟩ | ⟨h1, rfl⟩ | ⟨h1, rfl⟩ | ⟨h1, rfl⟩ <;>
      (simp only [TileRect.holds] at hc ⊢
       omega)
  · rintro ⟨hr, hne⟩
    have hr' := hr
    simp only [TileRect.holds] at hr' hne
    by_cases c1 : c.x < e.min_x
    · exact ⟨_, mem_splitPieces.2 (Or.inl ⟨by omega, rfl⟩),
        by simp only [TileRect.holds]; omega⟩
    · by_cases c2 : e.max_x < c.x
      · exact ⟨_, mem_splitPieces.2 (Or.inr (Or.inl ⟨by omega, rfl⟩)),
          by simp only [TileRect.holds]; omega⟩
      · by_cases c3 : c.y < e.min_y
        · exact ⟨_, mem_splitPieces.2 (Or.inr (Or.inr (Or.inl ⟨by omega, rfl⟩))),
            by simp only [TileRect.holds]; omega⟩
        · by_cases c4 : e.max_y < c.y
          · exact ⟨_, mem_splitPieces.2 (Or.inr (Or.inr (Or.inr ⟨by omega, rfl⟩))),
              by simp only [TileRect.holds]; omega⟩
          · exact absurd (show e.holds c by simp only [TileRect.holds]; omega) hne

lemma splitPieces_pairwise {r e : TileRect} (hm : e.meets r) :
    (splitPieces r e).Pairwise rectDisjoint := by
  obtain ⟨hz, hx, hy⟩ := hm
  unfold splitPieces
  refine List.pairwise_append.2
    ⟨List.pairwise_append.2
      ⟨List.pairwise_append.2 ⟨?_, ?_, ?_⟩, ?_, ?_⟩, ?_, ?_⟩
  · split_ifs <;> simp
  · split_ifs <;> simp
  · intro a ha b hb
    rw [mem_ite_singleton] at ha hb
    obtain ⟨ha1, rfl⟩ := ha
    obtain ⟨hb1, rfl⟩ := hb
    intro coord hc1 hc2
    simp only [TileRect.holds] at hc1 hc2
    omega
  · split_ifs <;> simp
  · intro a ha b hb
    simp only [List.mem_append, mem_ite_singleton] at ha
    rw [mem_ite_singleton] at hb
    obtain ⟨hb1, rfl⟩ := hb
    rcases ha with ⟨ha1, rfl⟩ | ⟨ha1, rfl⟩ <;>
      (intro coord hc1 hc2
       simp only [TileRect.holds] at hc1 hc2
       omega)
  · split_ifs <;> simp
  · intro a ha b hb
    simp only [List.mem_append, mem_ite_singleton, or_assoc] at ha
    rw [mem_ite_singleton] at hb
    obtain ⟨hb1, rfl⟩ := hb
    rcases ha with ⟨ha1, rfl⟩ | ⟨ha1, rfl⟩ | ⟨ha1, rfl⟩ <;>
      (intro coord hc1 hc2
       simp only [TileRect.holds] at hc1 hc2
       omega)

lemma holds_subtractAll : ∀ (es : List TileRect) (r : TileRect) (c : TileCoord),
    (∃ t ∈ subtractAll es r, t.holds c) ↔ r.holds c ∧ ¬ coveredBy es c := by
  intro es
  induction es with
  | nil =>
    intro r c
    simp only [subtractAll, List.mem_singleton]
    constructor
    · rintro ⟨t, rfl, hc⟩
      exact ⟨hc, coveredBy_nil c⟩
    · rintro ⟨hc, -⟩
      exact ⟨r, rfl, hc⟩
  | cons e es ih =>
    intro r c
    rw [subtractAll]
    by_cases hm : e.meets r
    · rw [if_pos hm]
      constructor
      · rintro ⟨t, ht, hc⟩
        obtain ⟨p, hp, htp⟩ := List.mem_flatMap.1 ht
        obtain ⟨hpc, hnes⟩ := (ih p c).1 ⟨t, htp, hc⟩
        obtain ⟨hr, hne⟩ := (holds_splitPieces hm c).1 ⟨p, hp, hpc⟩
        refine ⟨hr, ?_⟩
        rw [coveredBy_cons]
        rintro (h | h)
        · exact hne h
        · exact hnes h
      · rintro ⟨hr, hcov⟩
        rw [coveredBy_cons] at hcov
        push_neg at hcov
        obtain ⟨p, hp, hpc⟩ := (holds_splitPieces hm c).2 ⟨hr, hcov.1⟩
        obtain ⟨t, ht, htc⟩ := (ih p c).2 ⟨hpc, hcov.2⟩
        exact ⟨t, List.mem_flatMap.2 ⟨p, hp, ht⟩, htc⟩
    · rw [if_neg hm, ih r c, coveredBy_cons]
      constructor
      · rintro ⟨hr, hcov⟩
        refine ⟨hr, ?_⟩
        rintro (h | h)
        · exact hm (meets_of_holds h hr)
        · exact hcov h
      · rintro ⟨hr, hcov⟩
        exact ⟨hr, fun h => hcov (Or.inr h)⟩

lemma subtractAll_holds_sub {es : List TileRect} {r t : TileRect}
    (ht : t ∈ subtractAll es r) {c : TileCoord} (hc : t.holds c) :
    r.holds c ∧ ¬ coveredBy es c :=
  (holds_subtractAll es r c).1 ⟨t, ht, hc⟩

lemma subtractAll_pairwise : ∀ (es : List TileRect) (r : TileRect),
    (subtractAll es r).Pairwise rectDisjoint := by
  intro es
  induction es with
  | nil =>
    intro r
    simp [subtractAll]
  | cons e es ih =>
    intro r
    rw [subtractAll]
    by_cases hm : e.meets r
    · rw [if_pos hm]
      rw [List.flatMap_def, List.pairwise_flatten]
      refine ⟨?_, ?_⟩
      · intro l hl
        obtain ⟨p, -, rfl⟩ := List.mem_map.1 hl
        exact ih p
      · rw [List.pairwise_map]
        refine (splitPieces_pairwise hm).imp ?_
        intro p q hpq u hu v hv c huc hvc
        exact hpq c (subtractAll_holds_sub hu huc).1 (subtractAll_holds_sub hv hvc).1
    · rw [if_neg hm]
      exact ih r

lemma coveredBy_append_rect {ranges : List TileRect} {r : TileRect} {c : TileCoord} :
    coveredBy (append_rect ranges r) c ↔ coveredBy ranges c ∨ r.holds c := by
  unfold append_rect
  constructor
  · rintro ⟨t, ht, hc⟩
    rcases List.mem_append.1 ht with ht | ht
    · exact Or.inl ⟨t, ht, hc⟩
    · exact Or.inr (subtractAll_holds_sub ht hc).1
  · rintro (⟨t, ht, hc⟩ | hr)
    · exact ⟨t, List.mem_append_left _ ht, hc⟩
    · by_cases hcov : coveredBy ranges c
      · obtain ⟨t, ht, hc⟩ := hcov
        exact ⟨t, List.mem_append_left _ ht, hc⟩
      · obtain ⟨t, ht, hc⟩ := (holds_subtractAll ranges r c).2 ⟨hr, hcov⟩
        exact ⟨t, List.mem_append_right _ ht, hc⟩

lemma append_rect_pairwise {ranges : List TileRect} (r : TileRect)
    (h : ranges.Pairwise rectDisjoint) :
    (append_rect ranges r).Pairwise rectDisjoint := by
  unfold append_rect
  rw [List.pairwise_append]
  refine ⟨h, subtractAll_pairwise ranges r, ?_⟩
  intro a ha b hb c hac hbc
  exact (subtractAll_holds_sub hb hbc).2 ⟨a, ha, hac⟩

lemma tile_index_of_lt {proj : Proj} {lon lat : ℚ} {zoom : Nat} (h : zoom < 32) :
    tile_index proj lon lat zoom =
      some (min (satCastU32 (proj lon lat zoom).1) (2 ^ zoom - 1),
            min (satCastU32 (proj lon lat zoom).2) (2 ^ zoom - 1)) := by
  simp [tile_index, h]

lemma computeGo_spec (proj : Proj) : ∀ (pairs : List (Nat × Bounds)) (ranges : List TileRect),
    (∀ p ∈ pairs, p.1 < 32) → ranges.Pairwise rectDisjoint →
    ∃ out, computeGo proj pairs ranges = some out ∧ out.Pairwise rectDisjoint ∧
      ∀ c, coveredBy out c ↔
        coveredBy ranges c ∨ ∃ p ∈ pairs, (pairRect proj p).holds c := by
  intro pairs
  induction pairs with
  | nil =>
    intro ranges _ hpw
    refine ⟨ranges, rfl, hpw, fun c => ?_⟩
    simp
  | cons p pairs ih =>
    intro ranges hlt hpw
    obtain ⟨z, b⟩ := p
    have hz : z < 32 := hlt (z, b) (List.mem_cons_self _ _)
    rw [computeGo, tile_index_of_lt hz, tile_index_of_lt hz]
    obtain ⟨out, hout, houtpw, houtcov⟩ :=
      ih (append_rect ranges (pairRect proj (z, b)))
        (fun q hq => hlt q (List.mem_cons_of_mem _ hq))
        (append_rect_pairwise _ hpw)
    refine ⟨out, hout, houtpw, fun c => ?_⟩
    rw [houtcov c, coveredBy_append_rect]
    constructor
    · rintro ((h | h) | h)
      · exact Or.inl h
      · exact Or.inr ⟨(z, b), List.mem_cons_self _ _, h⟩
      · obtain ⟨q, hq, hqc⟩ := h
        exact Or.inr ⟨q, List.mem_cons_of_mem _ hq, hqc⟩
    · rintro (h | ⟨q, hq, hqc⟩)
      · exact Or.inl (Or.inl h)
      · rcases List.mem_cons.1 hq with rfl | hq
        · exact Or.inl (Or.inr hqc)
        · exact Or.inr ⟨q, hq, hqc⟩

lemma mem_rectTiles {c : TileCoord} {t : TileRect} :
    c ∈ rectTiles t ↔ t.holds c := by
  obtain ⟨cz, cx, cy⟩ := c
  simp only [rectTiles, TileRect.holds, List.mem_flatMap, List.mem_map,
    List.mem_range'_1, TileCoord.mk.injEq]
  constructor
  · rintro ⟨x, hx, y, hy, hz, hxx, hyy⟩
    omega
  · rintro ⟨hz, h1, h2, h3, h4⟩
    exact ⟨cx, by omega, cy, by omega, hz.symm, rfl, rfl⟩

lemma rectTiles_nodup (t : TileRect) : (rectTiles t).Nodup := by
  unfold rectTiles
  rw [List.nodup_flatMap]
  constructor
  · intro x _
    refine List.Nodup.map ?_ (List.nodup_range' _ _)
    intro a b hab
    injection hab with _ _ h
  · have h := List.nodup_range' t.min_x (t.max_x + 1 - t.min_x)
    rw [List.Nodup] at h
    refine h.imp ?_
    intro x₁ x₂ hne c hc1 hc2
    obtain ⟨y₁, -, rfl⟩ := List.mem_map.1 hc1
    obtain ⟨y₂, -, heq⟩ := List.mem_map.1 hc2
    injection heq with _ h2 _
    exact hne h2.symm

lemma mem_iterate_tiles {c : TileCoord} {tiles : List TileRect} :
    c ∈ iterate_tiles tiles ↔ coveredBy tiles c := by
  unfold iterate_tiles coveredBy
  rw [List.mem_flatMap]
  constructor
  · rintro ⟨t, ht, hc⟩
    exact ⟨t, ht, mem_rectTiles.1 hc⟩
  · rintro ⟨t, ht, hc⟩
    exact ⟨t, ht, mem_rectTiles.2 hc⟩

lemma iterate_tiles_nodup {tiles : List TileRect}
    (h : tiles.Pairwise rectDisjoint) : (iterate_tiles tiles).Nodup := by
  unfold iterate_tiles
  rw [List.nodup_flatMap]
  refine ⟨fun t _ => rectTiles_nodup t, ?_⟩
  refine h.imp ?_
  intro a b hab c hca hcb
  exact hab c (mem_rectTiles.1 hca) (mem_rectTiles.1 hcb)

lemma mem_zoomBoxPairs {args : CopyArgs} {p : Nat × Bounds} :
    p ∈ zoomBoxPairs args ↔
      p.1 ∈ zoomSelection args ∧ p.2 ∈ effectiveBoxes args := by
  obtain ⟨z, b⟩ := p
  simp [zoomBoxPairs]

lemma zoomSelection_congr {args args' : CopyArgs}
    (hmin : args'.min_zoom = args.min_zoom) (hmax : args'.max_zoom = args.max_zoom)
    (hlevels : args'.zoom_levels = args.zoom_levels) :
    zoomSelection args' = zoomSelection args := by
  unfold zoomSelection
  rw [hmin, hmax, hlevels]

lemma mem_effectiveBoxes_perm {args args' : CopyArgs}
    (hbbox : args'.bbox.Perm args.bbox) (b : Bounds) :
    b ∈ effectiveBoxes args' ↔ b ∈ effectiveBoxes args := by
  unfold effectiveBoxes
  by_cases h : args.bbox = []
  · rw [h] at hbbox
    rw [h, hbbox.eq_nil]
  · have h' : args'.bbox ≠ [] := fun hn => h (by rw [hn] at hbbox; exact hbbox.symm.eq_nil)
    rw [if_neg (by simp [h']), if_neg (by simp [h])]
    exact hbbox.mem_iff

/-- C1: for every zoom selection and list of bounding boxes, enumerating the
rectangles of `compute_tile_ranges` via `iterate_tiles` yields exactly the
union over all (zoom, box) pairs of the tiles covered by each box at that
zoom, with no coordinate enumerated twice, and permuting the input boxes never
changes the enumerated set.  Zoom levels are restricted to at most 31 so that
the `1_u32 << zoom` shift inside `tile_index` does not overflow. -/
theorem compute_tile_ranges_exact_cover (proj : Proj) (args args' : CopyArgs)
    (hz : ∀ z ∈ zoomSelection args, z < 32)
    (hbbox : args'.bbox.Perm args.bbox)
    (hmin : args'.min_zoom = args.min_zoom)
    (hmax : args'.max_zoom = args.max_zoom)
    (hlevels : args'.zoom_levels = args.zoom_levels) :
    ∃ out out',
      compute_tile_ranges proj args = some out ∧
      compute_tile_ranges proj args' = some out' ∧
      (∀ c, c ∈ iterate_tiles out ↔ inputCoverage proj args c) ∧
      (iterate_tiles out).Nodup ∧
      (∀ c, c ∈ iterate_tiles out' ↔ c ∈ iterate_tiles out) := by
  have hz' : ∀ z ∈ zoomSelection args', z < 32 := by
    rw [zoomSelection_congr hmin hmax hlevels]
    exact hz
  obtain ⟨out, hout, houtpw, houtcov⟩ :=
    computeGo_spec proj (zoomBoxPairs args) []
      (fun p hp => hz p.1 (mem_zoomBoxPairs.1 hp).1) List.Pairwise.nil
  obtain ⟨out', hout', houtpw', houtcov'⟩ :=
    computeGo_spec proj (zoomBoxPairs args') []
      (fun p hp => hz' p.1 (mem_zoomBoxPairs.1 hp).1) List.Pairwise.nil
  have hcov : ∀ c, coveredBy out c ↔ inputCoverage proj args c := by
    intro c
    rw [houtcov c]
    constructor
    · rintro (h | ⟨p, hp, hpc⟩)
      · exact absurd h (coveredBy_nil c)
      · obtain ⟨h1, h2⟩ := mem_zoomBoxPairs.1 hp
        exact ⟨p.1, h1, p.2, h2, hpc⟩
    · rintro ⟨z, h1, b, h2, hpc⟩
      exact Or.inr ⟨(z, b), mem_zoomBoxPairs.2 ⟨h1, h2⟩, hpc⟩
  have hcov' : ∀ c, coveredBy out' c ↔ inputCoverage proj args c := by
    intro c
    rw [houtcov' c]
    constructor
    · rintro (h | ⟨p, hp, hpc⟩)
      · exact absurd h (coveredBy_nil c)
      · obtain ⟨h1, h2⟩ := mem_zoomBoxPairs.1 hp
        rw [zoomSelection_congr hmin hmax hlevels] at h1
        exact ⟨p.1, h1, p.2, (mem_effectiveBoxes_perm hbbox p.2).1 h2, hpc⟩
    · rintro ⟨z, h1, b, h2, hpc⟩
      refine Or.inr ⟨(z, b), mem_zoomBoxPairs.2 ⟨?_, ?_⟩, hpc⟩
      · rw [zoomSelection_congr hmin hmax hlevels]
        exact h1
      · exact (mem_effectiveBoxes_perm hbbox b).2 h2
  refine ⟨out, out', hout, hout', ?_, iterate_tiles_nodup houtpw, ?_⟩
  · intro c
    rw [mem_iterate_tiles]
    exact hcov c
  · intro c
    rw [mem_iterate_tiles, mem_iterate_tiles, hcov c, hcov' c]

/-- Fixture oracle for witnesses: every projection result is `(0, 0)`. -/
def projZero : Proj := fun _ _ _ => (0, 0)

/-- Fixture arguments for the C1 witness: two unit boxes, zoom list `[3]`. -/
def argsC1 : CopyArgs :=
  ⟨[⟨0, 0, 1, 1⟩, ⟨2, 2, 3, 3⟩], none, none, [3]⟩

/-- Fixture arguments for the C1 witness: the same boxes, permuted. -/
def argsC1swap : CopyArgs :=
  ⟨[⟨2, 2, 3, 3⟩, ⟨0, 0, 1, 1⟩], none, none, [3]⟩

theorem compute_tile_ranges_exact_cover_witness :
    (∀ z ∈ zoomSelection argsC1, z < 32) ∧
    argsC1swap.bbox.Perm argsC1.bbox ∧
    ∃ out out',
      compute_tile_ranges projZero argsC1 = some out ∧
      compute_tile_ranges projZero argsC1swap = some out' ∧
      (∀ c, c ∈ iterate_tiles out ↔ inputCoverage projZero argsC1 c) ∧
      (iterate_tiles out).Nodup ∧
      (∀ c, c ∈ iterate_tiles out' ↔ c ∈ iterate_tiles out) :=
  ⟨by decide, by decide,
    compute_tile_ranges_exact_cover projZero argsC1 argsC1swap
      (by decide) (by decide) rfl rfl rfl⟩

/-- C2: for longitudes in [-180, 180], latitudes in (-85.0511, 85.0511] and
every zoom level (at most 31, where the `1 << zoom` shift is defined),
`tile_index` returns a pair (x, y) with 0 ≤ x < 2^zoom and 0 ≤ y < 2^zoom, for
every outcome of the floating-point projection; and concretely
`tile_index(-180.0, 85.0511, 0) = (0, 0)` because at zoom 0 both axes are
clamped to `max_value = 0`. -/
theorem tile_index_in_range (proj : Proj) (lon lat : ℚ) (zoom : Nat)
    (_h1 : -180 ≤ lon) (_h2 : lon ≤ 180)
    (_h3 : (-85.0511 : ℚ) < lat) (_h4 : lat ≤ 85.0511) (hz : zoom ≤ 31) :
    (∃ x y, tile_index proj lon lat zoom = some (x, y) ∧
      x < 2 ^ zoom ∧ y < 2 ^ zoom) ∧
    tile_index proj (-180) 85.0511 0 = some (0, 0) := by
  have hp : 1 ≤ 2 ^ zoom := Nat.one_le_two_pow
  constructor
  · rw [tile_index_of_lt (by omega)]
    refine ⟨_, _, rfl, ?_, ?_⟩ <;> omega
  · rw [tile_index_of_lt (by omega)]
    simp

theorem tile_index_in_range_witness :
    ((-180 : ℚ) ≤ -180 ∧ (-180 : ℚ) ≤ 180 ∧ (-85.0511 : ℚ) < 85.0511 ∧
      (85.0511 : ℚ) ≤ 85.0511 ∧ (0 : Nat) ≤ 31) ∧
    (∃ x y, tile_index projZero (-180) 85.0511 0 = some (x, y) ∧
      x < 2 ^ 0 ∧ y < 2 ^ 0) ∧
    tile_index projZero (-180) 85.0511 0 = some (0, 0) :=
  ⟨⟨by norm_num, by norm_num, by norm_num, le_refl _, by norm_num⟩,
    tile_index_in_range projZero (-180) 85.0511 0
      (le_refl _) (by norm_num) (by norm_num) (le_refl _) (by norm_num)⟩

/-- C3 counterexample: at zoom 32 (a value representable as `u8`) the shift
`1_u32 << zoom` in `tile_index` overflows, so the embedded function yields no
result instead of a clamped pair; under Rust's checked arithmetic the source
panics with a shift overflow.  This refutes the claim that `tile_index` never
fails for every zoom value representable as u8. -/
theorem tile_index_fails_at_zoom_32 :
    tile_index projZero 0 0 32 = none := rfl

/-- C3 (amended): for every zoom at most 31 and every input — longitudes and
latitudes arbitrarily far outside the valid geographic range, and every
floating-point outcome — `tile_index` raises no error and clamps the result
into [0, 2^zoom - 1] on each axis. -/
theorem tile_index_total_clamped (proj : Proj) (lon lat : ℚ) (zoom : Nat)
    (hz : zoom ≤ 31) :
    ∃ x y, tile_index proj lon lat zoom = some (x, y) ∧
      x ≤ 2 ^ zoom - 1 ∧ y ≤ 2 ^ zoom - 1 := by
  rw [tile_index_of_lt (by omega)]
  exact ⟨_, _, rfl, Nat.min_le_right _ _, Nat.min_le_right _ _⟩

/-- Fixture oracle exercising both saturation directions of the `as u32`
cast. -/
def projBig : Proj := fun _ _ _ => (-5, 2 ^ 40)

theorem tile_index_total_clamped_witness :
    (5 : Nat) ≤ 31 ∧
    ∃ x y, tile_index projBig 1000 (-999) 5 = some (x, y) ∧
      x ≤ 2 ^ 5 - 1 ∧ y ≤ 2 ^ 5 - 1 :=
  ⟨by norm_num, tile_index_total_clamped projBig 1000 (-999) 5 (by norm_num)⟩

lemma computeGo_nil (proj : Proj) (ranges : List TileRect) :
    computeGo proj [] ranges = some ranges := rfl

lemma computeGo_cons {proj : Proj} {z : Nat} {b : Bounds}
    {rest : List (Nat × Bounds)} {ranges : List TileRect} (hz : z < 32) :
    computeGo proj ((z, b) :: rest) ranges =
      computeGo proj rest (append_rect ranges (pairRect proj (z, b))) := by
  rw [computeGo, tile_index_of_lt hz, tile_index_of_lt hz]
  rfl

/-- Behavior of the floating-point projection at the corners of the
whole-world box for zoom `z`, within the sub-unit error the `f64` evaluation
can introduce.  At the left/top corner both real-valued expressions are
exactly 0 (the x computation `(-180+180)/360*n = 0` is even exact in f64), so
the floored y lies in {-1, 0}; at the right/bottom corner the x computation
`(180+180)/360*n = n` is exact in f64 and the real y value is exactly `n`, so
the floored y lies in {n-1, n}. -/
def WorldCorners (proj : Proj) (z : Nat) : Prop :=
  (proj Bounds.maxTiled.left Bounds.maxTiled.top z).1 = 0 ∧
  -1 ≤ (proj Bounds.maxTiled.left Bounds.maxTiled.top z).2 ∧
  (proj Bounds.maxTiled.left Bounds.maxTiled.top z).2 ≤ 0 ∧
  (proj Bounds.maxTiled.right Bounds.maxTiled.bottom z).1 = (2 : Int) ^ z ∧
  (2 : Int) ^ z - 1 ≤ (proj Bounds.maxTiled.right Bounds.maxTiled.bottom z).2 ∧
  (proj Bounds.maxTiled.right Bounds.maxTiled.bottom z).2 ≤ (2 : Int) ^ z

instance (proj : Proj) (z : Nat) : Decidable (WorldCorners proj z) := by
  unfold WorldCorners
  exact inferInstance

lemma pairRect_world {proj : Proj} {z : Nat} (h : WorldCorners proj z)
    (hz : z ≤ 31) :
    pairRect proj (z, Bounds.maxTiled) = ⟨z, 0, 0, 2 ^ z - 1, 2 ^ z - 1⟩ := by
  obtain ⟨h1, h2, h3, h4, h5, h6⟩ := h
  have hcast : ((2 : Int) ^ z) = ((2 ^ z : Nat) : Int) := by push_cast; ring
  rw [hcast] at h4 h5 h6
  have hN : (2 : Nat) ^ z ≤ 2 ^ 31 := Nat.pow_le_pow_right (by norm_num) hz
  have hN31 : (2 : Nat) ^ 31 ≤ 2 ^ 32 - 1 := by norm_num
  unfold pairRect satCastU32
  rw [TileRect.mk.injEq]
  refine ⟨rfl, ?_, ?_, ?_, ?_⟩ <;>
    simp only [h1, h4] <;> omega

/-- C4: with no bounding boxes (whole world) and explicit zoom list `[0]`,
`compute_tile_ranges` yields exactly one rectangle `0:(0,0)-(0,0)`; with
`[3,7]` exactly the two rectangles `3:(0,0)-(7,7)` and `7:(0,0)-(127,127)`;
with min/max zoom `2..4` exactly three rectangles, one per zoom in {2,3,4},
each covering the full `2^zoom × 2^zoom` extent.  The floating-point
projection is constrained only by `WorldCorners`: its value at the world
corners up to the sub-unit f64 error. -/
theorem compute_tile_ranges_whole_world (proj : Proj)
    (h0 : WorldCorners proj 0) (h2 : WorldCorners proj 2)
    (h3 : WorldCorners proj 3) (h4 : WorldCorners proj 4)
    (h7 : WorldCorners proj 7) :
    compute_tile_ranges proj ⟨[], none, none, [0]⟩ = some [⟨0, 0, 0, 0, 0⟩] ∧
    compute_tile_ranges proj ⟨[], none, none, [3, 7]⟩ =
      some [⟨3, 0, 0, 7, 7⟩, ⟨7, 0, 0, 127, 127⟩] ∧
    compute_tile_ranges proj ⟨[], some 2, some 4, []⟩ =
      some [⟨2, 0, 0, 3, 3⟩, ⟨3, 0, 0, 7, 7⟩, ⟨4, 0, 0, 15, 15⟩] := by
  refine ⟨?_, ?_, ?_⟩
  · show computeGo proj [(0, Bounds.maxTiled)] [] = _
    rw [computeGo_cons (by omega), computeGo_nil,
      pairRect_world h0 (by omega)]
    decide
  · show computeGo proj [(3, Bounds.maxTiled), (7, Bounds.maxTiled)] [] = _
    rw [computeGo_cons (by omega), computeGo_cons (by omega), computeGo_nil,
      pairRect_world h3 (by omega), pairRect_world h7 (by omega)]
    decide
  · show computeGo proj [(2, Bounds.maxTiled), (3, Bounds.maxTiled), (4, Bounds.maxTiled)] [] = _
    rw [computeGo_cons (by omega), computeGo_cons (by omega),
      computeGo_cons (by omega), computeGo_nil,
      pairRect_world h2 (by omega), pairRect_world h3 (by omega),
      pairRect_world h4 (by omega)]
    decide

/-- Fixture oracle for the whole-world witnesses: the exact real-valued corner
results, with the left/top y floored to -1 to exercise the saturating cast. -/
def projWorld : Proj := fun lon _ z =>
  if lon = -180 then (0, -1) else ((2 : Int) ^ z, (2 : Int) ^ z)

theorem compute_tile_ranges_whole_world_witness :
    WorldCorners projWorld 0 ∧ WorldCorners projWorld 7 ∧
    compute_tile_ranges projWorld ⟨[], none, none, [0]⟩ = some [⟨0, 0, 0, 0, 0⟩] ∧
    compute_tile_ranges projWorld ⟨[], none, none, [3, 7]⟩ =
      some [⟨3, 0, 0, 7, 7⟩, ⟨7, 0, 0, 127, 127⟩] ∧
    compute_tile_ranges projWorld ⟨[], some 2, some 4, []⟩ =
      some [⟨2, 0, 0, 3, 3⟩, ⟨3, 0, 0, 7, 7⟩, ⟨4, 0, 0, 15, 15⟩] :=
  ⟨by decide, by decide,
    compute_tile_ranges_whole_world projWorld
      (by decide) (by decide) (by decide) (by decide) (by decide)⟩

/-- The USA bounding box of the source's `test_compute_tile_ranges`
(`-124.8489,24.3963,-66.8854,49.3843`). -/
def bboxUsa : Bounds := ⟨-124.8489, 24.3963, -66.8854, 49.3843⟩

/-- The Michigan bounding box of the source's `test_compute_tile_ranges`
(`-86.6271,41.6811,-82.3095,45.8058`). -/
def bboxMi : Bounds := ⟨-86.6271, 41.6811, -82.3095, 45.8058⟩

/-- The California bounding box of the source's `test_compute_tile_ranges`
(`-124.482,32.5288,-114.1307,42.0095`). -/
def bboxCa : Bounds := ⟨-124.482, 32.5288, -114.1307, 42.0095⟩

/-- Floored f64 projection results for the USA box corners at zoom 14, as
pinned by the source's snapshot `14: (2509,5599) - (5147,7046)`. -/
def UsaCorners (proj : Proj) : Prop :=
  proj bboxUsa.left bboxUsa.top 14 = (2509, 5599) ∧
  proj bboxUsa.right bboxUsa.bottom 14 = (5147, 7046)

/-- Floored f64 projection results for the Michigan box corners at zoom 14
(source snapshot `14: (4249,5841) - (4446,6101)`). -/
def MiCorners (proj : Proj) : Prop :=
  proj bboxMi.left bboxMi.top 14 = (4249, 5841) ∧
  proj bboxMi.right bboxMi.bottom 14 = (4446, 6101)

/-- Floored f64 projection results for the California box corners at zoom 14
(the box `14: (2526,6081) - (2997,6624)` nested inside the USA box). -/
def CaCorners (proj : Proj) : Prop :=
  proj bboxCa.left bboxCa.top 14 = (2526, 6081) ∧
  proj bboxCa.right bboxCa.bottom 14 = (2997, 6624)

instance (proj : Proj) : Decidable (UsaCorners proj) := by
  unfold UsaCorners
  exact inferInstance

instance (proj : Proj) : Decidable (MiCorners proj) := by
  unfold MiCorners
  exact inferInstance

instance (proj : Proj) : Decidable (CaCorners proj) := by
  unfold CaCorners
  exact inferInstance

/-- C5: supplying the three overlapping USA, Michigan and California boxes
together at zoom 14 (the USA box covering the other two, in the order of the
source's `test_compute_tile_ranges`) produces exactly one rectangle — the USA
box's rectangle `14:(2509,5599)-(5147,7046)` alone. -/
theorem compute_tile_ranges_usa_merge (proj : Proj)
    (hu : UsaCorners proj) (hm : MiCorners proj) (hc : CaCorners proj) :
    compute_tile_ranges proj ⟨[bboxUsa, bboxMi, bboxCa], none, none, [14]⟩ =
      some [⟨14, 2509, 5599, 5147, 7046⟩] := by
  obtain ⟨hu1, hu2⟩ := hu
  obtain ⟨hm1, hm2⟩ := hm
  obtain ⟨hc1, hc2⟩ := hc
  show computeGo proj [(14, bboxUsa), (14, bboxMi), (14, bboxCa)] [] = _
  rw [computeGo_cons (by omega), computeGo_cons (by omega),
    computeGo_cons (by omega), computeGo_nil]
  have r1 : pairRect proj (14, bboxUsa) = ⟨14, 2509, 5599, 5147, 7046⟩ := by
    simp only [pairRect, hu1, hu2]
    decide
  have r2 : pairRect proj (14, bboxMi) = ⟨14, 4249, 5841, 4446, 6101⟩ := by
    simp only [pairRect, hm1, hm2]
    decide
  have r3 : pairRect proj (14, bboxCa) = ⟨14, 2526, 6081, 2997, 6624⟩ := by
    simp only [pairRect, hc1, hc2]
    decide
  rw [r1, r2, r3]
  decide

/-- Fixture oracle returning the snapshot corner values for the three
claim-C5 boxes at zoom 14. -/
def projSnap : Proj := fun lon lat _ =>
  if lon = -124.8489 ∧ lat = 49.3843 then (2509, 5599)
  else if lon = -66.8854 ∧ lat = 24.3963 then (5147, 7046)
  else if lon = -86.6271 ∧ lat = 45.8058 then (4249, 5841)
  else if lon = -82.3095 ∧ lat = 41.6811 then (4446, 6101)
  else if lon = -124.482 ∧ lat = 42.0095 then (2526, 6081)
  else if lon = -114.1307 ∧ lat = 32.5288 then (2997, 6624)
  else (0, 0)

theorem compute_tile_ranges_usa_merge_witness :
    UsaCorners projSnap ∧ MiCorners projSnap ∧ CaCorners projSnap ∧
    compute_tile_ranges projSnap ⟨[bboxUsa, bboxMi, bboxCa], none, none, [14]⟩ =
      some [⟨14, 2509, 5599, 5147, 7046⟩] := by
  have hu : UsaCorners projSnap := by
    constructor <;> norm_num [projSnap, bboxUsa]
  have hm : MiCorners projSnap := by
    constructor <;> norm_num [projSnap, bboxMi]
  have hc : CaCorners projSnap := by
    constructor <;> norm_num [projSnap, bboxCa]
  exact ⟨hu, hm, hc, compute_tile_ranges_usa_merge projSnap hu hm hc⟩

/-- Batch-size threshold `BATCH_SIZE` (source line 34). -/
def BATCH_SIZE : Nat := 1000

/-- Time threshold `SAVE_EVERY` in seconds (source line 31). -/
def SAVE_EVERY : Nat := 60

/-- One fetched tile (`struct TileXyz`, source lines 192-195); the payload is
the byte list, `[]` meaning "no content at this coordinate". -/
structure TileXyz where
  xyz : TileCoord
  data : List Nat
deriving DecidableEq

/-- One row passed to `Mbtiles::insert_tiles`:
`(tile.xyz.z, tile.xyz.x, tile.xyz.y, tile.data)` (source line 329). -/
def rowOf (t : TileXyz) : Nat × Nat × Nat × List Nat :=
  (t.xyz.z, t.xyz.x, t.xyz.y, t.data)

/-- State of the consumer task of `run_tile_copy` (source lines 320-350): the
in-memory batch, the batches flushed so far through the sink's `insert_tiles`
(in call order), the two progress counters, and the instant of the last save.
Instants are seconds as naturals; the tokio `Instant` arithmetic `last_saved
.elapsed() > SAVE_EVERY` becomes `SAVE_EVERY < now - lastSaved`. -/
structure ConsumerState where
  batch : List (Nat × Nat × Nat × List Nat)
  inserts : List (List (Nat × Nat × Nat × List Nat))
  empty : Nat
  non_empty : Nat
  lastSaved : Nat
deriving DecidableEq

/-- Initial consumer state (source lines 321-323): empty batch, counters at 0,
`last_saved = Instant::now()`. -/
def initState (start : Nat) : ConsumerState :=
  ⟨[], [], 0, 0, start⟩

/-- One iteration of the consumer's `while let Some(tile) = rx.recv()` loop
(source lines 324-344), receiving the tile at the given instant.  An empty
payload only bumps the `empty` counter and is never added to a batch; a
non-empty payload is pushed onto the batch, the batch is flushed (insert +
clear + timer reset) when it reaches `BATCH_SIZE` records or more than
`SAVE_EVERY` has elapsed since the last save, and the `non_empty` counter is
bumped.  The progress-report logging (lines 338-343) changes no state and is
omitted. -/
def consumeStep (st : ConsumerState) (rec : Nat × TileXyz) : ConsumerState :=
  if rec.2.data.isEmpty then
    { st with empty := st.empty + 1 }
  else
    let batch := st.batch ++ [rowOf rec.2]
    if BATCH_SIZE ≤ batch.length ∨ SAVE_EVERY < rec.1 - st.lastSaved then
      { st with
          batch := []
          inserts := st.inserts ++ [batch]
          non_empty := st.non_empty + 1
          lastSaved := rec.1 }
    else
      { st with batch := batch, non_empty := st.non_empty + 1 }

/-- Final partial flush after the coordinate stream is exhausted (source lines
345-348): a non-empty remaining batch is inserted once more. -/
def finalFlush (st : ConsumerState) : ConsumerState :=
  if st.batch.isEmpty then st
  else { st with inserts := st.inserts ++ [st.batch] }

/-- The consumer stage of `run_tile_copy`: fold the loop body over the
received records (each tagged with its arrival instant), then perform the
final partial flush. -/
def runConsumer (records : List (Nat × TileXyz)) (start : Nat) : ConsumerState :=
  finalFlush (records.foldl consumeStep (initState start))

/-- Modelled from the spec: the CLI-level schema choice `MbtTypeCli` of the
mbtiles crate (not under `src/`): flat, flat-with-hash or normalized. -/
inductive MbtTypeCli where
  | flat
  | flatWithHash
  | normalized
deriving DecidableEq

/-- Modelled from the spec: the destination layout `MbtType` of the mbtiles
crate (not under `src/`); the normalized layout carries the `hash_view`
flag set by `init_schema`. -/
inductive MbtType where
  | flat
  | flatWithHash
  | normalized (hashView : Bool)
deriving DecidableEq

/-- Layout selected by `init_schema` for a CLI choice (source lines 380-384):
`Normalized` maps to `MbtType::Normalized { hash_view: true }`. -/
def cliType : MbtTypeCli → MbtType
  | MbtTypeCli.flat => MbtType.flat
  | MbtTypeCli.flatWithHash => MbtType.flatWithHash
  | MbtTypeCli.normalized => MbtType.normalized true

/-- Sink calls `init_schema` can make. -/
inductive SchemaAction where
  | createSchema (t : MbtType)
  | insertMetadata (meta : List (String × String))
  | detectType
deriving DecidableEq

/-- Map insert on the metadata association list (`tj.other.insert` replaces an
existing binding of the key). -/
def insertKV (m : List (String × String)) (k v : String) :
    List (String × String) :=
  (m.filter fun kv => kv.1 != k) ++ [(k, v)]

/-- Shallow embedding of `init_schema` (source lines 372-400).  The sink
collaborator is abstracted by its observable answers: whether
`is_empty_database` holds and which layout `detect_type` reports; the
combined descriptive metadata of `merge_tilejson` is the `merged` parameter
and the tool version the `ver` parameter.  Returns the layout used for all
subsequent inserts together with the sink calls made.  On an empty database
the layout comes from the CLI choice (default normalized), the schema is
created, and the merged metadata is seeded with a `format` entry from the
source tile info and a `generator` entry `martin-cp v{VERSION}`; otherwise the
detected layout is returned unchanged. -/
def init_schema (isEmptyDb : Bool) (detected : MbtType)
    (merged : List (String × String)) (formatStr ver : String)
    (mbt_type : Option MbtTypeCli) : MbtType × List SchemaAction :=
  if isEmptyDb then
    let t := cliType (mbt_type.getD MbtTypeCli.normalized)
    let meta := insertKV (insertKV merged "format" formatStr)
      "generator" ("martin-cp v" ++ ver)
    (t, [SchemaAction.createSchema t, SchemaAction.insertMetadata meta])
  else
    (detected, [SchemaAction.detectType])

/-- Sink calls of one `run_tile_copy` run after schema initialization. -/
inductive MbtAction where
  | insertTiles (batch : List (Nat × Nat × Nat × List Nat))
  | setMetadataValue (key value : String)
  | updateAggTilesHash
deriving DecidableEq

/-- Sink-call trace of `run_tile_copy` after `init_schema`: the batched
`insert_tiles` calls of the consumer (final partial flush included), one
`set_metadata_value` call per `--set-meta` pair (source lines 355-358), then —
unless `skip_agg_tiles_hash` is set, and only when the final non-empty counter
is nonzero — a single `update_agg_tiles_hash` call (source lines 360-367). -/
def run_actions (records : List (Nat × TileXyz)) (start : Nat)
    (setMeta : List (String × String)) (skipAggHash : Bool) : List MbtAction :=
  let st := runConsumer records start
  (st.inserts.map MbtAction.insertTiles) ++
  (setMeta.map fun kv => MbtAction.setMetadataValue kv.1 kv.2) ++
  (if skipAggHash then []
   else if st.non_empty = 0 then []
   else [MbtAction.updateAggTilesHash])

/-- Checked u64 addition: overflow is an arithmetic failure. -/
def u64_add (a b : Nat) : Option Nat :=
  if a + b < 2 ^ 64 then some (a + b) else none

/-- Checked u64 multiplication: overflow is an arithmetic failure. -/
def u64_mul (a b : Nat) : Option Nat :=
  if a * b < 2 ^ 64 then some (a * b) else none

/-- Checked u64 subtraction: underflow is an arithmetic failure. -/
def u64_sub (a b : Nat) : Option Nat :=
  if b ≤ a then some (a - b) else none

/-- Checked u64 division: division by zero is an arithmetic failure (this one
fails in every Rust build mode). -/
def u64_div (a b : Nat) : Option Nat :=
  if b = 0 then none else some (a / b)

/-- Shallow embedding of `impl Display for Progress` (source lines 237-265).
The floating-point parts — elapsed seconds, speed, and the ETA duration — are
outside the embedding and passed as pre-formatted strings; the u64 arithmetic
`done = non_empty + empty`, `percent = done * 100 / total` and
`left = total - done` is embedded with checked semantics, so a division by
zero or an over/underflow yields `none` (the source fails there). -/
def progress_display (total empty non_empty : Nat)
    (elapsedStr speedStr etaStr : String) : Option String :=
  (u64_add non_empty empty).bind fun done =>
  (u64_mul done 100).bind fun p1 =>
  (u64_div p1 total).bind fun percent =>
  (u64_sub total done).bind fun left =>
  let tail :=
    if left = 0 then " | done"
    else if done = 0 then " | ??? left"
    else " | " ++ etaStr ++ " left"
  some ("[" ++ elapsedStr ++ "] " ++ toString percent ++ "% @ " ++ speedStr ++
    "/s | ✓ " ++ toString non_empty ++ " □ " ++ toString empty ++ tail)

lemma consume_fold_spec : ∀ (recs : List (Nat × TileXyz)) (st : ConsumerState),
    (recs.foldl consumeStep st).empty =
      st.empty + (recs.filter fun r => r.2.data.isEmpty).length ∧
    (recs.foldl consumeStep st).non_empty =
      st.non_empty + (recs.filter fun r => !r.2.data.isEmpty).length ∧
    (recs.foldl consumeStep st).inserts.flatten ++
        (recs.foldl consumeStep st).batch =
      st.inserts.flatten ++ st.batch ++
        ((recs.filter fun r => !r.2.data.isEmpty).map fun r => rowOf r.2) := by
  intro recs
  induction recs with
  | nil =>
    intro st
    simp
  | cons r recs ih =>
    intro st
    have h := ih (consumeStep st r)
    rw [List.foldl_cons]
    by_cases hre : r.2.data.isEmpty = true
    · have hstep : consumeStep st r = { st with empty := st.empty + 1 } := by
        simp [consumeStep, hre]
      rw [hstep] at h
      rw [hstep]
      obtain ⟨h1, h2, h3⟩ := h
      refine ⟨?_, ?_, ?_⟩
      · rw [h1]
        simp [List.filter_cons, hre]
        try omega
      · rw [h2]
        simp [List.filter_cons, hre]
        try omega
      · rw [h3]
        simp [List.filter_cons, hre]
    · have hre' : r.2.data.isEmpty = false := by
        cases hb : r.2.data.isEmpty
        · rfl
        · exact absurd hb hre
      by_cases htr : BATCH_SIZE ≤ (st.batch ++ [rowOf r.2]).length ∨
          SAVE_EVERY < r.1 - st.lastSaved
      · have hstep : consumeStep st r =
            { st with
                batch := []
                inserts := st.inserts ++ [st.batch ++ [rowOf r.2]]
                non_empty := st.non_empty + 1
                lastSaved := r.1 } := by
          simp only [consumeStep, hre', Bool.false_eq_true, if_false]
          rw [if_pos htr]
        rw [hstep] at h
        rw [hstep]
        obtain ⟨h1, h2, h3⟩ := h
        refine ⟨?_, ?_, ?_⟩
        · simp only [h1, List.filter_cons, hre']
          simp
        · simp only [h2, List.filter_cons, hre']
          simp
          omega
        · simp only [h3, List.filter_cons, hre']
          simp
      · have hstep : consumeStep st r =
            { st with
                batch := st.batch ++ [rowOf r.2]
                non_empty := st.non_empty + 1 } := by
          simp only [consumeStep, hre', Bool.false_eq_true, if_false]
          rw [if_neg htr]
        rw [hstep] at h
        rw [hstep]
        obtain ⟨h1, h2, h3⟩ := h
        refine ⟨?_, ?_, ?_⟩
        · simp only [h1, List.filter_cons, hre']
          simp
        · simp only [h2, List.filter_cons, hre']
          simp
          omega
        · simp only [h3, List.filter_cons, hre']
          simp

lemma filter_bool_length {α : Type} (l : List α) (p : α → Bool) :
    (l.filter p).length + (l.filter fun a => !(p a)).length = l.length := by
  induction l with
  | nil => simp
  | cons a l ih =>
    cases h : p a <;> simp [List.filter_cons, h] <;> omega

lemma finalFlush_empty (st : ConsumerState) :
    (finalFlush st).empty = st.empty := by
  unfold finalFlush
  split_ifs <;> rfl

lemma finalFlush_non_empty (st : ConsumerState) :
    (finalFlush st).non_empty = st.non_empty := by
  unfold finalFlush
  split_ifs <;> rfl

lemma finalFlush_flatten (st : ConsumerState) :
    (finalFlush st).inserts.flatten = st.inserts.flatten ++ st.batch := by
  unfold finalFlush
  split_ifs with h
  · rw [List.isEmpty_iff] at h
    simp [h]
  · simp

/-- C6: for every record the consumer receives, an empty payload bumps the
empty counter and is never passed to the sink's insert; a non-empty payload
bumps the non-empty counter and is appended to the batch, which is flushed to
the sink and cleared exactly when it reaches `BATCH_SIZE` (1000) records or
more than `SAVE_EVERY` (60 s) elapsed since the last flush; after the stream
is exhausted a remaining non-empty batch is flushed exactly once more.  The
flushed batches concatenate to exactly the non-empty records in arrival
order, so each is persisted exactly once and empty records never are. -/
theorem consumer_batching (records : List (Nat × TileXyz)) (start : Nat) :
    (runConsumer records start).empty =
      (records.filter fun r => r.2.data.isEmpty).length ∧
    (runConsumer records start).non_empty =
      (records.filter fun r => !r.2.data.isEmpty).length ∧
    (runConsumer records start).inserts.flatten =
      ((records.filter fun r => !r.2.data.isEmpty).map fun r => rowOf r.2) ∧
    (∀ st now tile, tile.data.isEmpty = true →
      consumeStep st (now, tile) = { st with empty := st.empty + 1 }) ∧
    (∀ st now tile, tile.data.isEmpty = false →
      ((consumeStep st (now, tile)).inserts =
        st.inserts ++
          (if BATCH_SIZE ≤ st.batch.length + 1 ∨ SAVE_EVERY < now - st.lastSaved
           then [st.batch ++ [rowOf tile]] else []) ∧
      ((consumeStep st (now, tile)).batch = [] ↔
        BATCH_SIZE ≤ st.batch.length + 1 ∨ SAVE_EVERY < now - st.lastSaved))) ∧
    (runConsumer records start).inserts.length =
      (records.foldl consumeStep (initState start)).inserts.length +
        (if (records.foldl consumeStep (initState start)).batch.isEmpty
         then 0 else 1) := by
  obtain ⟨h1, h2, h3⟩ := consume_fold_spec records (initState start)
  refine ⟨?_, ?_, ?_, ?_, ?_, ?_⟩
  · rw [runConsumer, finalFlush_empty, h1]
    simp [initState]
  · rw [runConsumer, finalFlush_non_empty, h2]
    simp [initState]
  · rw [runConsumer, finalFlush_flatten, h3]
    simp [initState]
  · intro st now tile ht
    simp [consumeStep, ht]
  · intro st now tile ht
    have hlen : (st.batch ++ [rowOf tile]).length = st.batch.length + 1 := by
      simp
    constructor
    · simp only [consumeStep, ht, Bool.false_eq_true, if_false, hlen]
      split_ifs with hc
      · rfl
      · simp
    · simp only [consumeStep, ht, Bool.false_eq_true, if_false, hlen]
      split_ifs with hc
      · simp [hc]
      · simp [hc]
  · rw [runConsumer, finalFlush]
    split_ifs with h <;> simp [h, List.length_append]

/-- Fixture record stream for the consumer witnesses: one empty tile, then one
non-empty tile arriving 61 seconds later (triggering the time-based flush
characterization but not the size threshold). -/
def recsC6 : List (Nat × TileXyz) :=
  [(0, ⟨⟨0, 0, 0⟩, []⟩), (61, ⟨⟨0, 0, 1⟩, [7]⟩)]

theorem consumer_batching_witness :
    (runConsumer recsC6 0).empty = 1 ∧
    (runConsumer recsC6 0).non_empty = 1 ∧
    (runConsumer recsC6 0).inserts.flatten = [(0, 0, 1, [7])] :=
  ⟨((consumer_batching recsC6 0).1).trans (by decide),
   ((consumer_batching recsC6 0).2.1).trans (by decide),
   ((consumer_batching recsC6 0).2.2.1).trans (by decide)⟩

lemma length_rectTiles (t : TileRect) :
    (rectTiles t).length = t.tileCount := by
  unfold rectTiles TileRect.tileCount
  rw [List.length_flatMap]
  simp [Function.comp_def, List.length_map, List.length_range', List.map_const',
    List.sum_replicate, smul_eq_mul, Nat.mul_comm]

lemma length_iterate_tiles (tiles : List TileRect) :
    (iterate_tiles tiles).length = (tiles.map TileRect.tileCount).sum := by
  unfold iterate_tiles
  rw [List.length_flatMap]
  congr 1
  exact List.map_congr_left fun t _ => length_rectTiles t

lemma tileCount_eq_size {t : TileRect} (h1 : t.min_x ≤ t.max_x)
    (h2 : t.min_y ≤ t.max_y) : t.tileCount = t.size := by
  unfold TileRect.tileCount TileRect.size
  have e1 : t.max_x + 1 - t.min_x = t.max_x - t.min_x + 1 := by omega
  have e2 : t.max_y + 1 - t.min_y = t.max_y - t.min_y + 1 := by omega
  rw [e1, e2]

/-- C7: when a run completes successfully — the consumer received exactly one
record per coordinate that `iterate_tiles` enumerates from the rectangles
computed at startup, in any arrival order — the final empty counter plus the
final non-empty counter equals the `Progress` total, which is the sum of
`TileRect::size` over those rectangles and also the number of enumerated
coordinates. -/
theorem progress_counters_balance (tiles : List TileRect)
    (hwf : ∀ r ∈ tiles, r.min_x ≤ r.max_x ∧ r.min_y ≤ r.max_y)
    (records : List (Nat × TileXyz)) (start : Nat)
    (hcomplete : (records.map fun r => r.2.xyz).Perm (iterate_tiles tiles)) :
    (runConsumer records start).empty + (runConsumer records start).non_empty =
      progressTotal tiles ∧
    progressTotal tiles = (iterate_tiles tiles).length := by
  have htotal : progressTotal tiles = (iterate_tiles tiles).length := by
    rw [length_iterate_tiles]
    unfold progressTotal
    congr 1
    exact List.map_congr_left fun t ht =>
      (tileCount_eq_size (hwf t ht).1 (hwf t ht).2).symm
  refine ⟨?_, htotal⟩
  obtain ⟨h1, h2, -⟩ := consume_fold_spec records (initState start)
  rw [runConsumer, finalFlush_empty, finalFlush_non_empty, h1, h2]
  have hlen : records.length = (iterate_tiles tiles).length := by
    rw [← hcomplete.length_eq, List.length_map]
  have hsplit := filter_bool_length records fun r => r.2.data.isEmpty
  simp only [initState]
  omega

theorem progress_counters_balance_witness :
    (∀ r ∈ [(⟨0, 0, 0, 0, 0⟩ : TileRect)], r.min_x ≤ r.max_x ∧ r.min_y ≤ r.max_y) ∧
    ([(0, (⟨⟨0, 0, 0⟩, []⟩ : TileXyz))].map fun r => r.2.xyz).Perm
      (iterate_tiles [⟨0, 0, 0, 0, 0⟩]) ∧
    (runConsumer [(0, ⟨⟨0, 0, 0⟩, []⟩)] 0).empty +
        (runConsumer [(0, ⟨⟨0, 0, 0⟩, []⟩)] 0).non_empty =
      progressTotal [⟨0, 0, 0, 0, 0⟩] ∧
    progressTotal [⟨0, 0, 0, 0, 0⟩] = (iterate_tiles [⟨0, 0, 0, 0, 0⟩]).length :=
  ⟨by decide, by decide,
    progress_counters_balance [⟨0, 0, 0, 0, 0⟩] (by decide)
      [(0, ⟨⟨0, 0, 0⟩, []⟩)] 0 (by decide)⟩

lemma lookup_append_right (l : List (String × String)) (k v : String)
    (h : ∀ kv ∈ l, (k == kv.1) = false) :
    List.lookup k (l ++ [(k, v)]) = some v := by
  induction l with
  | nil => simp [List.lookup]
  | cons a l ih =>
    obtain ⟨a1, a2⟩ := a
    rw [List.cons_append, List.lookup]
    rw [h (a1, a2) (List.mem_cons_self _ _)]
    exact ih fun kv hkv => h kv (List.mem_cons_of_mem _ hkv)

lemma lookup_insertKV (m : List (String × String)) (k v : String) :
    List.lookup k (insertKV m k v) = some v := by
  apply lookup_append_right
  intro kv hkv
  have hf := (List.mem_filter.1 hkv).2
  have : kv.1 ≠ k := by simpa [bne] using hf
  exact beq_eq_false_iff_ne.2 fun he => this he.symm

lemma lookup_insertKV_ne (m : List (String × String)) {k k' : String}
    (v : String) (h : k' ≠ k) :
    List.lookup k' (insertKV m k v) = List.lookup k' m := by
  induction m with
  | nil =>
    simp [insertKV, List.lookup, beq_eq_false_iff_ne.2 h]
  | cons a m ih =>
    obtain ⟨a1, a2⟩ := a
    unfold insertKV
    rw [List.filter_cons]
    by_cases hk : (a1 != k) = true
    · rw [if_pos (by simpa using hk), List.cons_append, List.lookup, List.lookup]
      cases ha : (k' == a1)
      · exact ih
      · rfl
    · have ha1 : a1 = k := by
        have hf : (a1 != k) = false := by simpa using hk
        have ht : (a1 == k) = true := by simpa [bne] using hf
        exact eq_of_beq ht
      rw [if_neg (by simpa using hk)]
      rw [List.lookup]
      have hne : (k' == a1) = false := beq_eq_false_iff_ne.2 (ha1 ▸ h)
      rw [hne]
      exact ih

/-- Metadata seeded by `init_schema` on an empty destination: the merged
tilejson metadata with the `format` and `generator` entries inserted
(source lines 386-394). -/
def seededMeta (merged : List (String × String)) (formatStr ver : String) :
    List (String × String) :=
  insertKV (insertKV merged "format" formatStr) "generator" ("martin-cp v" ++ ver)

/-- C8: on a destination that is empty at start, `init_schema` creates and
returns the caller-specified layout when one is supplied (the default
normalized layout otherwise) and seeds the combined metadata with a `format`
field from the source tile info and a `generator` field naming the tool and
its version; on a destination that already has tiles it returns the
auto-detected existing layout, and the caller's override has no effect. -/
theorem init_schema_layout (detected : MbtType) (merged : List (String × String))
    (formatStr ver : String) :
    (∀ cli, (init_schema true detected merged formatStr ver (some cli)).1 =
      cliType cli) ∧
    (init_schema true detected merged formatStr ver none).1 =
      MbtType.normalized true ∧
    (∀ cli, (init_schema true detected merged formatStr ver cli).2 =
      [SchemaAction.createSchema (init_schema true detected merged formatStr ver cli).1,
       SchemaAction.insertMetadata (seededMeta merged formatStr ver)]) ∧
    List.lookup "format" (seededMeta merged formatStr ver) = some formatStr ∧
    List.lookup "generator" (seededMeta merged formatStr ver) =
      some ("martin-cp v" ++ ver) ∧
    (∀ cli, (init_schema false detected merged formatStr ver cli).1 = detected) ∧
    (∀ cli cli', init_schema false detected merged formatStr ver cli =
      init_schema false detected merged formatStr ver cli') := by
  refine ⟨fun cli => rfl, rfl, fun cli => rfl, ?_, ?_, fun cli => rfl,
    fun cli cli' => rfl⟩
  · unfold seededMeta
    rw [lookup_insertKV_ne _ _ (by decide), lookup_insertKV]
  · exact lookup_insertKV _ _ _

/-- C9: after the pipeline completes, the aggregate-hash call on the sink
occurs exactly once when hash computation is not skipped and the final
non-empty counter is positive, and never occurs when the non-empty counter is
zero, even with hash computation enabled. -/
theorem agg_hash_exactly_once (records : List (Nat × TileXyz)) (start : Nat)
    (setMeta : List (String × String)) (skipAggHash : Bool) :
    ((run_actions records start setMeta skipAggHash).count
        MbtAction.updateAggTilesHash =
      if skipAggHash = false ∧ (runConsumer records start).non_empty ≠ 0
      then 1 else 0) ∧
    ((runConsumer records start).non_empty = 0 →
      (run_actions records start setMeta skipAggHash).count
        MbtAction.updateAggTilesHash = 0) := by
  have hmain : (run_actions records start setMeta skipAggHash).count
      MbtAction.updateAggTilesHash =
      if skipAggHash = false ∧ (runConsumer records start).non_empty ≠ 0
      then 1 else 0 := by
    unfold run_actions
    rw [List.count_append, List.count_append]
    have c1 : ((runConsumer records start).inserts.map
        MbtAction.insertTiles).count MbtAction.updateAggTilesHash = 0 := by
      rw [List.count_eq_zero]
      intro hmem
      obtain ⟨b, -, hb⟩ := List.mem_map.1 hmem
      exact MbtAction.noConfusion hb
    have c2 : (setMeta.map fun kv =>
        MbtAction.setMetadataValue kv.1 kv.2).count
        MbtAction.updateAggTilesHash = 0 := by
      rw [List.count_eq_zero]
      intro hmem
      obtain ⟨b, -, hb⟩ := List.mem_map.1 hmem
      exact MbtAction.noConfusion hb
    rw [c1, c2]
    cases skipAggHash
    · by_cases h : (runConsumer records start).non_empty = 0
      · simp [h]
      · simp [h]
    · simp
  exact ⟨hmain, fun h => by rw [hmain]; simp [h]⟩

theorem agg_hash_exactly_once_witness :
    (run_actions [] 0 [] false).count MbtAction.updateAggTilesHash = 0 ∧
    (run_actions recsC6 0 [] false).count MbtAction.updateAggTilesHash = 1 :=
  ⟨(agg_hash_exactly_once [] 0 [] false).2 (by decide),
   ((agg_hash_exactly_once recsC6 0 [] false).1).trans (by decide)⟩

/-- C10 counterexample: the claimed precondition `total ≥ 1` and
`empty + non_empty ≤ total` does not make rendering total.  With
`total = empty = 2^63` and `non_empty = 0` the precondition holds, yet
`done * 100` overflows u64, so the checked arithmetic of the rendering fails
anyway. -/
theorem progress_display_overflow :
    (1 ≤ (2 ^ 63 : Nat) ∧ 2 ^ 63 + 0 ≤ (2 ^ 63 : Nat)) ∧
    progress_display (2 ^ 63) (2 ^ 63) 0 "" "" "" = none := by
  refine ⟨⟨Nat.one_le_two_pow, by omega⟩, ?_⟩
  have h1 : u64_add 0 (2 ^ 63) = some (2 ^ 63) := by
    unfold u64_add
    norm_num
  have h2 : u64_mul (2 ^ 63) 100 = none := by
    unfold u64_mul
    rw [if_neg (by norm_num)]
  rw [progress_display, h1, Option.some_bind, h2]
  rfl

/-- C10 (amended): the u64 arithmetic of `Progress` rendering is total under
`1 ≤ total`, `empty + non_empty ≤ total` and the additional bound
`total * 100 < 2^64`, without which `done * 100` can overflow u64 even when
the original precondition holds; and the failure directions of the claim do
hold: `total = 0` fails (division by zero, in every build mode) and
`total < empty + non_empty` fails (checked u64 subtraction underflow). -/
theorem progress_display_welldefined (total empty non_empty : Nat)
    (eS sS tS : String)
    (h1 : 1 ≤ total) (h2 : empty + non_empty ≤ total)
    (h3 : total * 100 < 2 ^ 64) :
    (∃ s, progress_display total empty non_empty eS sS tS = some s) ∧
    (∀ e n, progress_display 0 e n eS sS tS = none) ∧
    (∀ t e n, t < e + n → progress_display t e n eS sS tS = none) := by
  refine ⟨?_, ?_, ?_⟩
  · have hd : non_empty + empty ≤ total := by omega
    have hmul : (non_empty + empty) * 100 ≤ total * 100 :=
      Nat.mul_le_mul_right 100 hd
    have ha : u64_add non_empty empty = some (non_empty + empty) := by
      unfold u64_add
      rw [if_pos (by omega)]
    have hm : u64_mul (non_empty + empty) 100 = some ((non_empty + empty) * 100) := by
      unfold u64_mul
      rw [if_pos (by omega)]
    have hv : u64_div ((non_empty + empty) * 100) total =
        some ((non_empty + empty) * 100 / total) := by
      unfold u64_div
      rw [if_neg (by omega)]
    have hs : u64_sub total (non_empty + empty) =
        some (total - (non_empty + empty)) := by
      unfold u64_sub
      rw [if_pos (by omega)]
    rw [progress_display, ha, Option.some_bind, hm, Option.some_bind, hv,
      Option.some_bind, hs, Option.some_bind]
    exact ⟨_, rfl⟩
  · intro e n
    rw [progress_display]
    rcases hadd : u64_add n e with _ | d
    · rfl
    · rw [Option.some_bind]
      rcases hmul : u64_mul d 100 with _ | p
      · rfl
      · rw [Option.some_bind]
        have hdiv : u64_div p 0 = none := rfl
        rw [hdiv]
        rfl
  · intro t e n hlt
    rw [progress_display]
    rcases hadd : u64_add n e with _ | d
    · rfl
    · have hd : d = n + e := by
        unfold u64_add at hadd
        split_ifs at hadd with hb
        exact (Option.some.inj hadd).symm
      rw [Option.some_bind]
      rcases hmul : u64_mul d 100 with _ | p
      · rfl
      · rw [Option.some_bind]
        rcases hdivr : u64_div p t with _ | q
        · rfl
        · rw [Option.some_bind]
          have hsub : u64_sub t d = none := by
            unfold u64_sub
            rw [if_neg (by omega)]
          rw [hsub]
          rfl

theorem progress_display_welldefined_witness :
    (1 ≤ 2 ∧ 1 + 1 ≤ 2 ∧ 2 * 100 < 2 ^ 64) ∧
    (∃ s, progress_display 2 1 1 "" "" "" = some s) ∧
    (∀ e n, progress_display 0 e n "" "" "" = none) ∧
    (∀ t e n, t < e + n → progress_display t e n "" "" "" = none) :=
  ⟨⟨by norm_num, by norm_num, by norm_num⟩,
    progress_display_welldefined 2 1 1 "" "" ""
      (by norm_num) (by norm_num) (by norm_num)⟩

end MartinCp
